import Mathlib

/-!
Verification of the GCD fast-field codec and the sorted term-stream merger
of the tantivy storage layer.

Shallow embedding of:
  * `src/fastfield/gcd.rs` — `compute_gcd`, `find_gcd`, `GCDFastFieldCodec`
    (`open_from_bytes`, `get_u64`) and `write_gcd_header`;
  * `src/termdict/sstable_termdict/merger.rs` — `HeapItem` (`eq`, `cmp`) and
    `TermMerger` (`new`, `advance_segments`, `advance`, `key`,
    `current_segment_ords_and_term_infos`).

Machine integers (`u64`) are modelled as `Nat`, with an explicit `% 2 ^ 64`
exactly where the Rust arithmetic can wrap.  Byte strings are `List Nat`.
-/

set_option maxHeartbeats 1000000

namespace Tantivy

/-! ### `compute_gcd` (src/fastfield/gcd.rs, lines 62-71)

The Rust arguments are `NonZeroU64`; the `small = 0` guard below is
unreachable for source inputs and makes the Lean function total. -/

/-- Euclid's algorithm exactly as the Rust loop performs it: repeatedly
replace `(large, small)` by `(small, large % small)` until the remainder is
zero, then return `small`. -/
def compute_gcd (large small : Nat) : Nat :=
  if h : small = 0 then large
  else
    let rem := large % small
    if rem = 0 then small
    else compute_gcd small rem
termination_by small
decreasing_by exact Nat.mod_lt large (Nat.pos_of_ne_zero h)

theorem compute_gcd_eq (large small : Nat) :
    compute_gcd large small = Nat.gcd small large := by
  induction small using Nat.strong_induction_on generalizing large with
  | _ small ih =>
    rw [compute_gcd]
    by_cases h0 : small = 0
    · simp [h0]
    · simp only [h0, dite_false]
      by_cases hrem : large % small = 0
      · simp only [hrem, if_true]
        exact (Nat.gcd_eq_left (Nat.dvd_iff_mod_eq_zero.mpr hrem)).symm
      · simp only [hrem, if_false]
        rw [ih (large % small) (Nat.mod_lt large (Nat.pos_of_ne_zero h0)) small]
        exact (Nat.gcd_rec small large).symm

/-! ### `find_gcd` (src/fastfield/gcd.rs, lines 74-95)

The source iterates lazily, skipping zeros (`flat_map(NonZeroU64::new)`),
seeds the running gcd with the first non-zero value, short-circuits at 1,
and for each later non-zero value computes `val mod gcd` (via the
`fastdivide` helper, whose `divide` is exact integer division, so
`val - (val / gcd) * gcd = val % gcd`) before falling back to
`compute_gcd`. -/

/-- The `for val in numbers` loop of `find_gcd`, with the running gcd `g`
(always non-zero in the source). -/
def find_gcd_loop (g : Nat) (l : List Nat) : Nat :=
  match l with
  | [] => g
  | v :: rest =>
    if v = 0 then find_gcd_loop g rest
    else if v % g = 0 then find_gcd_loop g rest
    else
      let g2 := compute_gcd v g
      if g2 = 1 then 1
      else find_gcd_loop g2 rest

/-- `find_gcd`: first non-zero value seeds the gcd (returning `none` when
there is none), `1` short-circuits, the rest goes through the loop. -/
def find_gcd (numbers : List Nat) : Option Nat :=
  match numbers with
  | [] => none
  | v :: rest =>
    if v = 0 then find_gcd rest
    else if v = 1 then some 1
    else some (find_gcd_loop v rest)

theorem foldl_gcd_one (l : List Nat) : List.foldl Nat.gcd 1 l = 1 := by
  induction l with
  | nil => rfl
  | cons v rest ih => simpa [Nat.gcd_one_left] using ih

theorem find_gcd_loop_eq (l : List Nat) (g : Nat) (hg : g ≠ 0) :
    find_gcd_loop g l = List.foldl Nat.gcd g l := by
  induction l generalizing g with
  | nil => rfl
  | cons v rest ih =>
    rw [find_gcd_loop]
    by_cases hv : v = 0
    · subst hv
      simp only [if_true, List.foldl_cons, Nat.gcd_zero_right]
      exact ih g hg
    · simp only [hv, if_false]
      by_cases hrem : v % g = 0
      · have hdvd : g ∣ v := Nat.dvd_iff_mod_eq_zero.mpr hrem
        simp only [hrem, if_true, List.foldl_cons, Nat.gcd_eq_left hdvd]
        exact ih g hg
      · simp only [hrem, if_false, compute_gcd_eq, List.foldl_cons]
        by_cases h1 : Nat.gcd g v = 1
        · simp only [h1, if_true, foldl_gcd_one]
        · simp only [h1, if_false]
          exact ih _ fun hz => hg (Nat.eq_zero_of_gcd_eq_zero_left hz)

theorem find_gcd_eq (l : List Nat) :
    find_gcd l = if ∀ x ∈ l, x = 0 then none
                 else some (List.foldl Nat.gcd 0 l) := by
  induction l with
  | nil => simp [find_gcd]
  | cons v rest ih =>
    rw [find_gcd]
    by_cases hv : v = 0
    · subst hv
      simp only [if_true, ih, List.foldl_cons, Nat.gcd_zero_right]
      by_cases hall : ∀ x ∈ rest, x = 0
      · have : ∀ x ∈ (0 : Nat) :: rest, x = 0 := by
          intro x hx
          rcases List.mem_cons.mp hx with h | h
          · exact h
          · exact hall x h
        simp [hall, this]
      · have : ¬ ∀ x ∈ (0 : Nat) :: rest, x = 0 := fun h =>
          hall fun x hx => h x (List.mem_cons_of_mem _ hx)
        simp [hall, this]
    · have hnall : ¬ ∀ x ∈ v :: rest, x = 0 := fun h => hv (h v (List.mem_cons_self v rest))
      simp only [hv, if_false, hnall, List.foldl_cons, Nat.gcd_zero_left]
      by_cases h1 : v = 1
      · subst h1
        simp [foldl_gcd_one]
      · simp only [h1, if_false]
        rw [find_gcd_loop_eq rest v hv]

theorem foldl_gcd_dvd_init (l : List Nat) (a : Nat) : List.foldl Nat.gcd a l ∣ a := by
  induction l generalizing a with
  | nil => exact dvd_refl a
  | cons v rest ih =>
    exact dvd_trans (ih (Nat.gcd a v)) (Nat.gcd_dvd_left a v)

theorem foldl_gcd_dvd_mem (l : List Nat) :
    ∀ (a : Nat), ∀ x ∈ l, List.foldl Nat.gcd a l ∣ x := by
  induction l with
  | nil => intro a x hx; cases hx
  | cons v rest ih =>
    intro a x hx
    rcases List.mem_cons.mp hx with h | h
    · subst h
      exact dvd_trans (foldl_gcd_dvd_init rest (Nat.gcd a x)) (Nat.gcd_dvd_right a x)
    · exact ih (Nat.gcd a v) x h

theorem dvd_foldl_gcd (l : List Nat) (d : Nat) :
    ∀ (a : Nat), d ∣ a → (∀ x ∈ l, d ∣ x) → d ∣ List.foldl Nat.gcd a l := by
  induction l with
  | nil => intro a ha _; exact ha
  | cons v rest ih =>
    intro a ha hl
    exact ih (Nat.gcd a v) (Nat.dvd_gcd ha (hl v (List.mem_cons_self v rest)))
      fun x hx => hl x (List.mem_cons_of_mem _ hx)

/-- C2: `find_gcd` returns `none` exactly when the sequence has no non-zero
value; otherwise it returns `some g` with `g > 0`, `g` dividing every
non-zero element, and no larger common divisor of the non-zero elements
existing (maximality). -/
theorem find_gcd_spec (l : List Nat) :
    (find_gcd l = none ↔ ∀ x ∈ l, x = 0) ∧
    (∀ g, find_gcd l = some g →
      0 < g ∧ (∀ x ∈ l, x ≠ 0 → g ∣ x) ∧
      (∀ d, (∀ x ∈ l, x ≠ 0 → d ∣ x) → d ≤ g)) := by
  rw [find_gcd_eq]
  by_cases hall : ∀ x ∈ l, x = 0
  · rw [if_pos hall]
    refine ⟨Iff.intro (fun _ => hall) (fun _ => rfl), fun g hg => ?_⟩
    cases hg
  · rw [if_neg hall]
    constructor
    · constructor
      · intro h
        cases h
      · intro h
        exact absurd h hall
    · intro g hg
      have hgeq : g = List.foldl Nat.gcd 0 l := (Option.some_inj.mp hg).symm
      obtain ⟨x0, hx0mem, hx0ne⟩ : ∃ x ∈ l, x ≠ 0 := by
        by_contra hc
        push_neg at hc
        exact hall hc
      have hdvd : ∀ x ∈ l, x ≠ 0 → g ∣ x := fun x hx _ =>
        hgeq ▸ foldl_gcd_dvd_mem l 0 x hx
      have hgpos : 0 < g := by
        rcases Nat.eq_zero_or_pos g with h0 | hpos
        · exact absurd (h0 ▸ hdvd x0 hx0mem hx0ne) (by simpa using hx0ne)
        · exact hpos
      refine ⟨hgpos, hdvd, fun d hd => ?_⟩
      have hdl : ∀ x ∈ l, d ∣ x := by
        intro x hx
        by_cases hxz : x = 0
        · exact hxz ▸ dvd_zero d
        · exact hd x hx hxz
      exact Nat.le_of_dvd hgpos (hgeq ▸ dvd_foldl_gcd l d 0 (dvd_zero d) hdl)

theorem find_gcd_spec_witness :
    find_gcd [15, 30, 5, 10] = some 5 ∧ (5 : Nat) ∣ 30 ∧ (5 : Nat) ≤ 5 := by
  have h : find_gcd [15, 30, 5, 10] = some 5 := by
    rw [find_gcd_eq]
    norm_num
  have h2 := (find_gcd_spec [15, 30, 5, 10]).2 5 h
  exact ⟨h, h2.2.1 30 (by norm_num) (by norm_num),
    h2.2.2 5 (by intro x hx _; fin_cases hx <;> norm_num)⟩

/-! ### `u64` binary serialization

Modelled from the spec: `common::BinarySerializable` for `u64` is not part
of the sources under `src/`; per the spec it is "a fixed-width 8-byte
unsigned integer in the encoding used by the surrounding binary format".
We model it as 8 little-endian bytes; every claim about it only uses that
the writer and the reader agree. -/

def serializeU64 (n : Nat) : List Nat :=
  (List.range 8).map fun i => n / 256 ^ i % 256

/-- `u64::deserialize`: consume the first 8 bytes of the buffer. -/
def deserializeU64 (bytes : List Nat) : Nat :=
  (bytes.take 8).foldr (fun b acc => b + 256 * acc) 0

theorem serializeU64_length (n : Nat) : (serializeU64 n).length = 8 := by
  simp [serializeU64]

theorem deserializeU64_serializeU64 (n : Nat) (h : n < 2 ^ 64) :
    deserializeU64 (serializeU64 n) = n := by
  show (((List.range 8).map fun i => n / 256 ^ i % 256).take 8).foldr _ 0 = n
  simp only [List.range_succ, List.range_zero, List.nil_append, List.map_append,
    List.map_cons, List.map_nil, List.cons_append]
  norm_num [List.take, List.foldr]
  omega

theorem deserializeU64_append (a b : List Nat) (h : a.length = 8) :
    deserializeU64 (a ++ b) = deserializeU64 a := by
  unfold deserializeU64
  rw [List.take_append_eq_append_take, h]
  simp [h, List.take_of_length_le]

/-! ### GCD columnar codec (src/fastfield/gcd.rs, lines 16-57) -/

/-- Result of `open_from_bytes`: the Rust function returns
`io::Result<Self>`, but its unchecked `bytes.len() - 16` makes buffers
shorter than 16 bytes panic (usize underflow in debug builds; an
out-of-bounds `OwnedBytes::split` after wraparound in release builds).
`panic` records that outcome, distinct from an `io::Error`. -/
inductive OpenResult (ρ : Type) where
  | ok : ρ → OpenResult ρ
  | err : OpenResult ρ
  | panic : OpenResult ρ
deriving DecidableEq, Repr

/-- `GCDFastFieldCodec { gcd, min_value, reader }`, generic over the inner
reader exactly like the Rust `CodecReader` parameter. -/
structure GCDFastFieldCodec (ρ : Type) where
  gcd : Nat
  min_value : Nat
  reader : ρ
deriving Repr

/-- Inner `FastFieldCodecReader` capability used by `get_u64`. -/
structure FastFieldReaderModel where
  get_u64 : Nat → Nat

/-- `open_from_bytes`: split the final 16 bytes off as the footer, parse
`gcd` then `min_value` from it, and open the inner reader over the body.
The inner `open_from_bytes` is abstracted as `innerOpen`. -/
def GCDFastFieldCodec.open_from_bytes {ρ : Type}
    (innerOpen : List Nat → OpenResult ρ) (bytes : List Nat) :
    OpenResult (GCDFastFieldCodec ρ) :=
  if bytes.length < 16 then .panic
  else
    let footer_offset := bytes.length - 16
    let body := bytes.take footer_offset
    let footer := bytes.drop footer_offset
    let gcd := deserializeU64 footer
    let min_value := deserializeU64 (footer.drop 8)
    match innerOpen body with
    | .ok r => .ok ⟨gcd, min_value, r⟩
    | .err => .err
    | .panic => .panic

/-- `get_u64`: `data = reader.get_u64(doc); data *= gcd; data += min_value`,
with each `u64` operation wrapping modulo `2 ^ 64`. -/
def GCDFastFieldCodec.get_u64 (c : GCDFastFieldCodec FastFieldReaderModel)
    (doc : Nat) : Nat :=
  (c.reader.get_u64 doc * c.gcd % 2 ^ 64 + c.min_value) % 2 ^ 64

/-- `write_gcd_header`: serialize `gcd` then `min_value`. -/
def write_gcd_header (min_value gcd : Nat) : List Nat :=
  serializeU64 gcd ++ serializeU64 min_value

theorem write_gcd_header_length (min_value gcd : Nat) :
    (write_gcd_header min_value gcd).length = 16 := by
  simp [write_gcd_header, serializeU64_length]

/-- Shared helper: opening a buffer that is an arbitrary body followed by a
well-formed header recovers exactly the written `gcd` and `min_value`. -/
theorem open_from_bytes_append_header {ρ : Type}
    (innerOpen : List Nat → OpenResult ρ) (body : List Nat) (g mv : Nat)
    (r : ρ) (hg : g < 2 ^ 64) (hmv : mv < 2 ^ 64)
    (hinner : innerOpen body = .ok r) :
    GCDFastFieldCodec.open_from_bytes innerOpen (body ++ write_gcd_header mv g)
      = .ok ⟨g, mv, r⟩ := by
  have hlen : (body ++ write_gcd_header mv g).length = body.length + 16 := by
    simp [write_gcd_header_length]
  have hoff : (body ++ write_gcd_header mv g).length - 16 = body.length := by
    omega
  unfold GCDFastFieldCodec.open_from_bytes
  have hnot : ¬ (body ++ write_gcd_header mv g).length < 16 := by omega
  simp only [hnot, if_false, hoff]
  have htake : (body ++ write_gcd_header mv g).take body.length = body :=
    List.take_left body _
  have hdrop : (body ++ write_gcd_header mv g).drop body.length =
      write_gcd_header mv g :=
    List.drop_left body _
  rw [htake, hdrop, hinner]
  have h1 : deserializeU64 (write_gcd_header mv g) = g := by
    rw [write_gcd_header, deserializeU64_append _ _ (serializeU64_length g)]
    exact deserializeU64_serializeU64 g hg
  have h2 : deserializeU64 ((write_gcd_header mv g).drop 8) = mv := by
    have : (write_gcd_header mv g).drop 8 = serializeU64 mv := by
      rw [write_gcd_header]
      have := serializeU64_length g
      rw [List.drop_append_eq_append_drop]
      simp [this]
    rw [this]
    exact deserializeU64_serializeU64 mv hmv
  rw [h1, h2]

/-- C1: `get_u64(doc)` returns `inner.get_u64(doc) * gcd + min_value`
(no wraparound occurs for a correctly encoded column), and hence decoding a
column whose inner reader stores the quotients of `(value - min_value) / gcd`
reproduces every original value exactly. -/
theorem gcd_codec_get_u64_spec (inner : FastFieldReaderModel) (g mv : Nat) :
    (∀ doc : Nat, inner.get_u64 doc * g + mv < 2 ^ 64 →
      (GCDFastFieldCodec.mk g mv inner).get_u64 doc
        = inner.get_u64 doc * g + mv) ∧
    (∀ vals : List Nat,
      (∀ doc : Nat, doc < vals.length →
        vals.getD doc 0 < 2 ^ 64 ∧
        vals.getD doc 0 = inner.get_u64 doc * g + mv) →
      ∀ doc : Nat, doc < vals.length →
        (GCDFastFieldCodec.mk g mv inner).get_u64 doc = vals.getD doc 0) := by
  have hbase : ∀ doc : Nat, inner.get_u64 doc * g + mv < 2 ^ 64 →
      (GCDFastFieldCodec.mk g mv inner).get_u64 doc
        = inner.get_u64 doc * g + mv := by
    intro doc hlt
    unfold GCDFastFieldCodec.get_u64
    simp only
    omega
  refine ⟨hbase, fun vals henc doc hdoc => ?_⟩
  obtain ⟨hv, he⟩ := henc doc hdoc
  rw [hbase doc (by omega), he]

theorem gcd_codec_get_u64_spec_witness :
    (GCDFastFieldCodec.mk 250 1000 ⟨fun d => d + 1⟩).get_u64 2 = 1750 := by
  have h := (gcd_codec_get_u64_spec ⟨fun d => d + 1⟩ 250 1000).2
    [1250, 1500, 1750]
    (by intro doc hdoc
        simp only [List.length_cons, List.length_nil] at hdoc
        interval_cases doc <;> exact ⟨by decide, by decide⟩)
    2 (by norm_num)
  simpa using h

/-- C5 counterexample: a buffer shorter than 16 bytes makes
`open_from_bytes` panic (unchecked `bytes.len() - 16`), it does not return
an `io::Result` decode error, even with an inner reader that always opens
successfully. -/
theorem gcd_open_short_cex :
    ([] : List Nat).length < 16 ∧
    GCDFastFieldCodec.open_from_bytes (fun _ => OpenResult.ok ()) []
      = OpenResult.panic ∧
    GCDFastFieldCodec.open_from_bytes (fun _ => OpenResult.ok ()) []
      ≠ OpenResult.err := by
  refine ⟨by norm_num, rfl, ?_⟩
  intro h
  cases h

/-- C5 amended: a buffer shorter than the 16-byte footer makes
`open_from_bytes` panic rather than return an `io` error; for buffers of at
least 16 bytes the open fails with a decode error exactly when the inner
reader fails to open over the body prefix. -/
theorem gcd_open_error_spec {ρ : Type} (innerOpen : List Nat → OpenResult ρ)
    (bytes : List Nat) :
    (bytes.length < 16 →
      GCDFastFieldCodec.open_from_bytes innerOpen bytes = .panic) ∧
    (16 ≤ bytes.length →
      (GCDFastFieldCodec.open_from_bytes innerOpen bytes = .err ↔
        innerOpen (bytes.take (bytes.length - 16)) = .err)) := by
  constructor
  · intro h
    unfold GCDFastFieldCodec.open_from_bytes
    rw [if_pos h]
  · intro h
    unfold GCDFastFieldCodec.open_from_bytes
    rw [if_neg (by omega)]
    cases hin : innerOpen (bytes.take (bytes.length - 16)) with
    | ok r =>
      simp only [hin]
      constructor
      · intro hc
        cases hc
      · intro hc
        cases hc
    | err =>
      simp only [hin]
    | panic =>
      simp only [hin]
      constructor
      · intro hc
        cases hc
      · intro hc
        cases hc

theorem gcd_open_error_spec_witness :
    GCDFastFieldCodec.open_from_bytes (fun _ => OpenResult.ok ()) ([] : List Nat)
      = OpenResult.panic ∧
    GCDFastFieldCodec.open_from_bytes (fun _ => (OpenResult.err : OpenResult Unit))
      (List.replicate 16 0) = OpenResult.err := by
  constructor
  · exact (gcd_open_error_spec (fun _ => OpenResult.ok ()) []).1 (by norm_num)
  · exact ((gcd_open_error_spec (fun _ => (OpenResult.err : OpenResult Unit))
      (List.replicate 16 0)).2 (by norm_num)).mpr rfl

/-- C7: `write_gcd_header` appends exactly 16 bytes — `gcd` first as a fixed
8-byte field, then `min_value` — and `open_from_bytes` on any buffer ending
in those 16 bytes parses back exactly the written `gcd` and `min_value`. -/
theorem gcd_header_roundtrip {ρ : Type} (innerOpen : List Nat → OpenResult ρ)
    (body : List Nat) (g mv : Nat) (r : ρ)
    (hg : g < 2 ^ 64) (hmv : mv < 2 ^ 64) (hinner : innerOpen body = .ok r) :
    (write_gcd_header mv g).length = 16 ∧
    (write_gcd_header mv g).take 8 = serializeU64 g ∧
    (write_gcd_header mv g).drop 8 = serializeU64 mv ∧
    GCDFastFieldCodec.open_from_bytes innerOpen (body ++ write_gcd_header mv g)
      = .ok ⟨g, mv, r⟩ := by
  have hlen := serializeU64_length g
  refine ⟨write_gcd_header_length mv g, ?_, ?_,
    open_from_bytes_append_header innerOpen body g mv r hg hmv hinner⟩
  · rw [write_gcd_header, List.take_append_eq_append_take, hlen]
    simp [List.take_of_length_le, hlen]
  · rw [write_gcd_header, List.drop_append_eq_append_drop, hlen]
    simp [hlen]

theorem gcd_header_roundtrip_witness :
    GCDFastFieldCodec.open_from_bytes (fun b => OpenResult.ok b)
      ([7, 7] ++ write_gcd_header 5 3)
      = OpenResult.ok ⟨3, 5, [7, 7]⟩ := by
  exact (gcd_header_roundtrip (fun b => OpenResult.ok b) [7, 7] 3 5 [7, 7]
    (by norm_num) (by norm_num) rfl).2.2.2

/-- C10: `open_from_bytes` does not validate the footer: a footer carrying
`gcd = 0` opens successfully whenever the inner reader opens, and every
subsequent `get_u64` call returns `min_value` for every doc id. -/
theorem gcd_open_no_validation (innerOpen : List Nat → OpenResult FastFieldReaderModel)
    (body : List Nat) (r : FastFieldReaderModel) (mv : Nat)
    (hmv : mv < 2 ^ 64) (hinner : innerOpen body = .ok r) :
    GCDFastFieldCodec.open_from_bytes innerOpen (body ++ write_gcd_header mv 0)
      = .ok ⟨0, mv, r⟩ ∧
    ∀ doc : Nat, (GCDFastFieldCodec.mk 0 mv r).get_u64 doc = mv := by
  refine ⟨open_from_bytes_append_header innerOpen body 0 mv r (by norm_num)
    hmv hinner, fun doc => ?_⟩
  unfold GCDFastFieldCodec.get_u64
  simp only [Nat.mul_zero, Nat.zero_mod, Nat.zero_add]
  omega

theorem gcd_open_no_validation_witness :
    GCDFastFieldCodec.open_from_bytes
      (fun _ => OpenResult.ok (FastFieldReaderModel.mk fun d => d))
      ([] ++ write_gcd_header 42 0)
      = OpenResult.ok ⟨0, 42, FastFieldReaderModel.mk fun d => d⟩ ∧
    (GCDFastFieldCodec.mk 0 42 (FastFieldReaderModel.mk fun d => d)).get_u64 9
      = 42 := by
  have h := gcd_open_no_validation
    (fun _ => OpenResult.ok (FastFieldReaderModel.mk fun d => d)) []
    (FastFieldReaderModel.mk fun d => d) 42 (by norm_num) rfl
  exact ⟨h.1, h.2 9⟩

/-! ### Term keys and their ordering (src/termdict/sstable_termdict/merger.rs)

A term key is a byte string (`List Nat`); a `TermInfo` is opaque to the
merger and modelled as a `Nat`.  `cmpKey` is Rust's `Ord` on byte slices:
lexicographic, with a strict prefix comparing smaller. -/

abbrev Key := List Nat

abbrev Entry := Key × Nat

def cmpKey : Key → Key → Ordering
  | [], [] => .eq
  | [], _ :: _ => .lt
  | _ :: _, [] => .gt
  | a :: as, b :: bs =>
    if a < b then .lt
    else if b < a then .gt
    else cmpKey as bs

def ltKey (a b : Key) : Prop := cmpKey a b = .lt

instance (a b : Key) : Decidable (ltKey a b) :=
  inferInstanceAs (Decidable (cmpKey a b = .lt))

theorem cmpKey_eq_iff : ∀ (a b : Key), cmpKey a b = .eq ↔ a = b := by
  intro a
  induction a with
  | nil =>
    intro b
    cases b with
    | nil => simp [cmpKey]
    | cons y bs => simp [cmpKey]
  | cons x as ih =>
    intro b
    cases b with
    | nil => simp [cmpKey]
    | cons y bs =>
      rcases Nat.lt_trichotomy x y with h | h | h
      · have hne : x ≠ y := Nat.ne_of_lt h
        simp [cmpKey, h, hne]
      · subst h
        simp [cmpKey, ih bs]
      · have hne : x ≠ y := (Nat.ne_of_lt h).symm
        have hnlt : ¬ x < y := by omega
        simp [cmpKey, h, hnlt, hne]

theorem cmpKey_gt_iff : ∀ (a b : Key), cmpKey a b = .gt ↔ cmpKey b a = .lt := by
  intro a
  induction a with
  | nil =>
    intro b
    cases b with
    | nil => simp [cmpKey]
    | cons y bs => simp [cmpKey]
  | cons x as ih =>
    intro b
    cases b with
    | nil => simp [cmpKey]
    | cons y bs =>
      rcases Nat.lt_trichotomy x y with h | h | h
      · have h2 : ¬ y < x := by omega
        simp [cmpKey, h, h2]
      · subst h
        simp [cmpKey, ih bs]
      · have h2 : ¬ x < y := by omega
        simp [cmpKey, h, h2]

theorem cmpKey_lt_trans :
    ∀ (a b c : Key), cmpKey a b = .lt → cmpKey b c = .lt → cmpKey a c = .lt := by
  intro a
  induction a with
  | nil =>
    intro b c hab hbc
    cases c with
    | nil =>
      cases b with
      | nil => exact absurd hab (by simp [cmpKey])
      | cons y bs => exact absurd hbc (by simp [cmpKey])
    | cons z cs => simp [cmpKey]
  | cons x as ih =>
    intro b c hab hbc
    cases b with
    | nil => exact absurd hab (by simp [cmpKey])
    | cons y bs =>
      cases c with
      | nil => exact absurd hbc (by simp [cmpKey])
      | cons z cs =>
        simp only [cmpKey] at hab hbc ⊢
        by_cases hxy : x < y
        · by_cases hyz : y < z
          · have hxz : x < z := by omega
            simp [hxz]
          · by_cases hzy : z < y
            · simp [hyz, hzy] at hbc
            · have hyz' : y = z := by omega
              subst hyz'
              simp [hxy]
        · by_cases hyx : y < x
          · simp [hxy, hyx] at hab
          · have hxy' : x = y := by omega
            subst hxy'
            simp only [if_neg hxy, if_neg hyx] at hab
            by_cases hxz : x < z
            · simp [hxz]
            · by_cases hzx : z < x
              · simp [hxz, hzx] at hbc
              · have hxz' : x = z := by omega
                subst hxz'
                simp only [if_neg hxz, if_neg hzx] at hbc ⊢
                exact ih bs cs hab hbc

theorem ltKey_trans {a b c : Key} (h1 : ltKey a b) (h2 : ltKey b c) :
    ltKey a c := cmpKey_lt_trans a b c h1 h2

theorem ltKey_irrefl (a : Key) : ¬ ltKey a a := by
  intro h
  have := (cmpKey_eq_iff a a).mpr rfl
  rw [ltKey] at h
  rw [h] at this
  cases this

theorem ltKey_ne {a b : Key} (h : ltKey a b) : a ≠ b := by
  intro he
  subst he
  exact ltKey_irrefl a h

theorem cmpKey_not_gt_iff (a b : Key) :
    cmpKey a b ≠ .gt ↔ (a = b ∨ ltKey a b) := by
  constructor
  · intro h
    cases hc : cmpKey a b with
    | lt => exact Or.inr hc
    | eq => exact Or.inl ((cmpKey_eq_iff a b).mp hc)
    | gt => exact absurd hc h
  · rintro (h | h)
    · subst h
      rw [(cmpKey_eq_iff a a).mpr rfl]
      intro hc
      cases hc
    · rw [ltKey] at h
      rw [h]
      intro hc
      cases hc

theorem leKey_lt_trans {a b c : Key} (h1 : cmpKey a b ≠ .gt) (h2 : ltKey b c) :
    ltKey a c := by
  rcases (cmpKey_not_gt_iff a b).mp h1 with h | h
  · exact h ▸ h2
  · exact ltKey_trans h h2

theorem ltKey_le_trans {a b c : Key} (h1 : ltKey a b) (h2 : cmpKey b c ≠ .gt) :
    ltKey a c := by
  rcases (cmpKey_not_gt_iff b c).mp h2 with h | h
  · exact h ▸ h1
  · exact ltKey_trans h1 h

theorem leKey_ne_lt {a b : Key} (h1 : cmpKey a b ≠ .gt) (h2 : a ≠ b) :
    ltKey a b := by
  rcases (cmpKey_not_gt_iff a b).mp h1 with h | h
  · exact absurd h h2
  · exact h

/-- Rust tuple `Ord` on `(key, segment_ord)`: key first, ordinal as the
tie-breaker. -/
def cmpKeyOrd (p q : Key × Nat) : Ordering :=
  match cmpKey p.1 q.1 with
  | .eq => if p.2 < q.2 then .lt else if q.2 < p.2 then .gt else .eq
  | .lt => .lt
  | .gt => .gt

theorem cmpKeyOrd_eq_iff (p q : Key × Nat) : cmpKeyOrd p q = .eq ↔ p = q := by
  unfold cmpKeyOrd
  cases hc : cmpKey p.1 q.1 with
  | eq =>
    have hk : p.1 = q.1 := (cmpKey_eq_iff _ _).mp hc
    constructor
    · intro h
      by_cases h1 : p.2 < q.2
      · simp [h1] at h
      · by_cases h2 : q.2 < p.2
        · simp [h1, h2] at h
        · exact Prod.ext hk (by omega)
    · intro h
      subst h
      simp
  | lt =>
    constructor
    · intro h
      cases h
    · intro h
      subst h
      rw [(cmpKey_eq_iff p.1 p.1).mpr rfl] at hc
      cases hc
  | gt =>
    constructor
    · intro h
      cases h
    · intro h
      subst h
      rw [(cmpKey_eq_iff p.1 p.1).mpr rfl] at hc
      cases hc

theorem cmpKeyOrd_gt_iff (p q : Key × Nat) :
    cmpKeyOrd p q = .gt ↔ cmpKeyOrd q p = .lt := by
  unfold cmpKeyOrd
  cases hc : cmpKey p.1 q.1 with
  | eq =>
    have hk : p.1 = q.1 := (cmpKey_eq_iff _ _).mp hc
    rw [(cmpKey_eq_iff q.1 p.1).mpr hk.symm]
    rcases Nat.lt_trichotomy p.2 q.2 with h | h | h
    · have h2 : ¬ q.2 < p.2 := by omega
      simp [h, h2]
    · have h1 : ¬ p.2 < q.2 := by omega
      have h2 : ¬ q.2 < p.2 := by omega
      simp [h1, h2]
    · have h1 : ¬ p.2 < q.2 := by omega
      simp [h, h1]
  | lt =>
    rw [(cmpKey_gt_iff q.1 p.1).mpr hc]
    simp
  | gt =>
    rw [(cmpKey_gt_iff p.1 q.1).mp hc]
    simp

theorem cmpKeyOrd_lt_trans {p q r : Key × Nat} (h1 : cmpKeyOrd p q = .lt)
    (h2 : cmpKeyOrd q r = .lt) : cmpKeyOrd p r = .lt := by
  unfold cmpKeyOrd at h1 h2 ⊢
  cases hpq : cmpKey p.1 q.1 with
  | gt => rw [hpq] at h1; cases h1
  | lt =>
    cases hqr : cmpKey q.1 r.1 with
    | gt => rw [hqr] at h2; cases h2
    | lt => rw [cmpKey_lt_trans _ _ _ hpq hqr]
    | eq =>
      have hk : q.1 = r.1 := (cmpKey_eq_iff _ _).mp hqr
      rw [hk] at hpq
      rw [hpq]
  | eq =>
    have hk : p.1 = q.1 := (cmpKey_eq_iff _ _).mp hpq
    cases hqr : cmpKey q.1 r.1 with
    | gt => rw [hqr] at h2; cases h2
    | lt =>
      rw [hk, hqr]
    | eq =>
      have hk2 : q.1 = r.1 := (cmpKey_eq_iff _ _).mp hqr
      rw [hk.trans hk2, (cmpKey_eq_iff r.1 r.1).mpr rfl]
      rw [hpq] at h1
      rw [hqr] at h2
      by_cases ha : p.2 < q.2
      · by_cases hb : q.2 < r.2
        · simp [show p.2 < r.2 by omega]
        · by_cases hb2 : r.2 < q.2
          · simp [hb, hb2] at h2
          · simp [show p.2 < r.2 by omega]
      · by_cases ha2 : q.2 < p.2
        · simp [ha, ha2] at h1
        · by_cases hb : q.2 < r.2
          · simp [show p.2 < r.2 by omega]
          · by_cases hb2 : r.2 < q.2
            · simp [hb, hb2] at h2
            · simp [ha, ha2] at h1

theorem cmpKeyOrd_key_not_gt {p q : Key × Nat} (h : cmpKeyOrd p q ≠ .gt) :
    cmpKey p.1 q.1 ≠ .gt := by
  intro hc
  apply h
  unfold cmpKeyOrd
  rw [hc]

theorem cmpKeyOrd_eqkey_ord_le {k : Key} {o1 o2 : Nat}
    (h : cmpKeyOrd (k, o1) (k, o2) ≠ .gt) : o1 ≤ o2 := by
  by_contra hc
  apply h
  unfold cmpKeyOrd
  rw [(cmpKey_eq_iff k k).mpr rfl]
  simp only
  rw [if_neg (by omega), if_pos (by omega)]

/-! ### `HeapItem` (src/termdict/sstable_termdict/merger.rs, lines 7-30)

A `HeapItem` owns one streamer plus its segment ordinal.  A `TermStreamer`
is a forward cursor over one segment's sorted `(key, TermInfo)` entries; we
model it inline as the current entry (`key`, `info`) plus the list of
not-yet-visited entries (`pending`).  `streamer.advance()` moves the head of
`pending` into the current entry and reports exhaustion when `pending` is
empty. -/

structure HeapItem where
  key : Key
  info : Nat
  pending : List Entry
  segment_ord : Nat
deriving DecidableEq, Repr

/-- Rust `PartialEq for HeapItem`: compares ONLY the segment ordinals. -/
def HeapItem.eq (a b : HeapItem) : Bool :=
  a.segment_ord == b.segment_ord

/-- Rust `Ord for HeapItem`: `(other.key, other.segment_ord)` compared to
`(self.key, self.segment_ord)` — reversed so Rust's max-`BinaryHeap` pops
the smallest `(key, segment_ord)` pair. -/
def HeapItem.cmp (a b : HeapItem) : Ordering :=
  cmpKeyOrd (b.key, b.segment_ord) (a.key, a.segment_ord)

/-- The pair the heap orders an item by. -/
def HeapItem.pri (a : HeapItem) : Key × Nat := (a.key, a.segment_ord)

/-- `a` is popped no later than `b`: its `(key, segment_ord)` pair is not
greater. -/
def heapLe (a b : HeapItem) : Prop := cmpKeyOrd a.pri b.pri ≠ .gt

/-! ### The priority queue

`std::collections::BinaryHeap` is std-library code outside this repository;
its contract is that `pop` removes a greatest element by `HeapItem.cmp`,
i.e. a smallest element by `(key, segment_ord)`.  We model the heap as the
list of its elements, and `pop`/`peek` as extraction of a minimal element
(deterministically the earliest minimal one). -/

def heapPopMin : List HeapItem → Option (HeapItem × List HeapItem)
  | [] => none
  | x :: rest =>
    match heapPopMin rest with
    | none => some (x, [])
    | some (y, rest') =>
      if cmpKeyOrd x.pri y.pri = .gt
      then some (y, x :: rest')
      else some (x, rest)

theorem heapPopMin_eq_none_iff (l : List HeapItem) :
    heapPopMin l = none ↔ l = [] := by
  cases l with
  | nil => simp [heapPopMin]
  | cons x rest =>
    rw [heapPopMin]
    cases h : heapPopMin rest with
    | none => simp
    | some p =>
      obtain ⟨y, rest'⟩ := p
      by_cases hc : cmpKeyOrd x.pri y.pri = .gt <;> simp [hc]

theorem heapPopMin_perm {l : List HeapItem} {x : HeapItem} {r : List HeapItem}
    (h : heapPopMin l = some (x, r)) : l.Perm (x :: r) := by
  induction l generalizing x r with
  | nil => cases h
  | cons a rest ih =>
    rw [heapPopMin] at h
    cases hr : heapPopMin rest with
    | none =>
      rw [hr] at h
      dsimp only at h
      have : rest = [] := (heapPopMin_eq_none_iff rest).mp hr
      subst this
      injection h with h1
      injection h1 with h1 h2
      subst h1
      subst h2
      exact List.Perm.refl _
    | some p =>
      obtain ⟨y, rest'⟩ := p
      rw [hr] at h
      dsimp only at h
      by_cases hc : cmpKeyOrd a.pri y.pri = .gt
      · rw [if_pos hc] at h
        injection h with h1
        injection h1 with h1 h2
        subst h1
        subst h2
        exact ((ih hr).cons a).trans (List.Perm.swap _ a rest')
      · rw [if_neg hc] at h
        injection h with h1
        injection h1 with h1 h2
        subst h1
        subst h2
        exact List.Perm.refl _

theorem cmpKeyOrd_not_gt_iff (p q : Key × Nat) :
    cmpKeyOrd p q ≠ .gt ↔ (p = q ∨ cmpKeyOrd p q = .lt) := by
  constructor
  · intro h
    cases hc : cmpKeyOrd p q with
    | lt => exact Or.inr rfl
    | eq => exact Or.inl ((cmpKeyOrd_eq_iff p q).mp hc)
    | gt => exact absurd hc h
  · rintro (h | h)
    · subst h
      rw [(cmpKeyOrd_eq_iff p p).mpr rfl]
      intro hc
      cases hc
    · rw [h]
      intro hc
      cases hc

theorem cmpKeyOrd_le_trans {p q r : Key × Nat} (h1 : cmpKeyOrd p q ≠ .gt)
    (h2 : cmpKeyOrd q r ≠ .gt) : cmpKeyOrd p r ≠ .gt := by
  rcases (cmpKeyOrd_not_gt_iff p q).mp h1 with h | h
  · exact h ▸ h2
  · rcases (cmpKeyOrd_not_gt_iff q r).mp h2 with h' | h'
    · exact h' ▸ h1
    · rw [(cmpKeyOrd_not_gt_iff p r)]
      exact Or.inr (cmpKeyOrd_lt_trans h h')

theorem heapLe_refl (a : HeapItem) : heapLe a a := by
  rw [heapLe, (cmpKeyOrd_eq_iff _ _).mpr rfl]
  intro h
  cases h

theorem heapLe_trans {a b c : HeapItem} (h1 : heapLe a b) (h2 : heapLe b c) :
    heapLe a c := cmpKeyOrd_le_trans h1 h2

theorem heapLe_of_gt {a b : HeapItem} (h : cmpKeyOrd b.pri a.pri = .gt) :
    heapLe a b := by
  rw [heapLe, (cmpKeyOrd_gt_iff b.pri a.pri).mp h]
  intro hc
  cases hc

theorem heapPopMin_min {l : List HeapItem} {x : HeapItem} {r : List HeapItem}
    (h : heapPopMin l = some (x, r)) : ∀ y ∈ l, heapLe x y := by
  induction l generalizing x r with
  | nil => cases h
  | cons a rest ih =>
    rw [heapPopMin] at h
    cases hr : heapPopMin rest with
    | none =>
      rw [hr] at h
      dsimp only at h
      have : rest = [] := (heapPopMin_eq_none_iff rest).mp hr
      subst this
      injection h with h1
      injection h1 with h1 h2
      subst h1
      intro y hy
      rcases List.mem_cons.mp hy with h | h
      · subst h
        exact heapLe_refl _
      · cases h
    | some p =>
      obtain ⟨y0, rest'⟩ := p
      rw [hr] at h
      dsimp only at h
      by_cases hc : cmpKeyOrd a.pri y0.pri = .gt
      · rw [if_pos hc] at h
        injection h with h1
        injection h1 with h1 h2
        subst h1
        subst h2
        intro y hy
        rcases List.mem_cons.mp hy with h | h
        · subst h
          exact heapLe_of_gt hc
        · exact ih hr y h
      · rw [if_neg hc] at h
        injection h with h1
        injection h1 with h1 h2
        subst h1
        subst h2
        intro y hy
        rcases List.mem_cons.mp hy with h | h
        · subst h
          exact heapLe_refl _
        · exact heapLe_trans hc (ih hr y h)

theorem heapPopMin_length {l : List HeapItem} {x : HeapItem} {r : List HeapItem}
    (h : heapPopMin l = some (x, r)) : r.length + 1 = l.length := by
  have := (heapPopMin_perm h).length_eq
  simp at this
  omega

/-! ### `TermMerger` (src/termdict/sstable_termdict/merger.rs, lines 39-111) -/

structure TermMerger where
  heap : List HeapItem
  current_streamers : List HeapItem
deriving DecidableEq, Repr

/-- `TermMerger::new`: ordinals are assigned by input order; the streamers
are placed in `current_streamers` un-advanced.  An un-advanced streamer has
no current entry yet; its placeholder `(key, info) = ([], 0)` is discarded
by `advance_segments` before it can ever be read. -/
def TermMerger.new (streams : List (List Entry)) : TermMerger :=
  { heap := [],
    current_streamers := streams.enum.map fun p =>
      { key := [], info := 0, pending := p.2, segment_ord := p.1 } }

/-- One `heap_item.streamer.advance()` call: move to the next entry, or
report exhaustion (`none`) when no entries remain. -/
def advanceItem (it : HeapItem) : Option HeapItem :=
  match it.pending with
  | [] => none
  | e :: rest => some { key := e.1, info := e.2, pending := rest,
                        segment_ord := it.segment_ord }

/-- `advance_segments`: drain `current_streamers`, advance each streamer,
and push the still-live ones into the heap. -/
def TermMerger.advance_segments (m : TermMerger) : TermMerger :=
  { heap := m.heap ++ m.current_streamers.filterMap advanceItem,
    current_streamers := [] }

/-- The `while let Some(next_streamer) = self.heap.peek()` loop of
`advance`: keep popping while the top of the heap carries the same key as
the head of the current group.  The fuel is the heap size, which the loop
can never exceed. -/
def gatherLoop : Nat → Key → List HeapItem → List HeapItem × List HeapItem
  | 0, _, h => ([], h)
  | fuel + 1, k, h =>
    match heapPopMin h with
    | none => ([], h)
    | some (next, h2) =>
      if next.key = k
      then
        let p := gatherLoop fuel k h2
        (next :: p.1, p.2)
      else ([], h)

/-- `TermMerger::advance`: drain-and-refill the heap, pop the minimum as
the head of the new group, then gather every item sharing its key. -/
def TermMerger.advance (m : TermMerger) : Bool × TermMerger :=
  let m1 := m.advance_segments
  match heapPopMin m1.heap with
  | none => (false, m1)
  | some (head, heap1) =>
    let p := gatherLoop heap1.length head.key heap1
    (true, { heap := p.2, current_streamers := head :: p.1 })

/-- `TermMerger::key`: the key of the head of the current group (only
called in the positioned state; `[]` is the out-of-contract default). -/
def TermMerger.key (m : TermMerger) : Key :=
  match m.current_streamers with
  | it :: _ => it.key
  | [] => []

/-- `current_segment_ords_and_term_infos`: one `(segment_ord, term_info)`
pair per current group member, in group order. -/
def TermMerger.current_segment_ords_and_term_infos (m : TermMerger) :
    List (Nat × Nat) :=
  m.current_streamers.map fun it => (it.segment_ord, it.info)

/-- The not-yet-consumed keys a heap item will contribute: its current key
plus its pending keys. -/
def itemKeys (it : HeapItem) : List Key := it.key :: it.pending.map Prod.fst

/-- The pending keys of an item whose current key was already consumed. -/
def pendKeys (it : HeapItem) : List Key := it.pending.map Prod.fst

/-- The keys still to be produced: every heap item's current key and pending
keys, plus the pending keys of the current group (whose current key has
already been merged). -/
def remKeys (m : TermMerger) : List Key :=
  (m.heap.map itemKeys).flatten ++ (m.current_streamers.map pendKeys).flatten

/-- C6 counterexample: two `HeapItem`s with the same ordinal but different
keys are equal under the source `PartialEq` (which compares only
`segment_ord`), refuting equality-over-`(key, segment_ord)` and the
claimed `a == b ↔ cmp(a, b) = Equal` consistency. -/
theorem heapitem_eq_cex :
    HeapItem.eq ⟨[0], 0, [], 3⟩ ⟨[1], 0, [], 3⟩ = true ∧
    ¬ (HeapItem.eq ⟨[0], 0, [], 3⟩ ⟨[1], 0, [], 3⟩ = true ↔
      ((⟨[0], 0, [], 3⟩ : HeapItem).key = (⟨[1], 0, [], 3⟩ : HeapItem).key ∧
       (⟨[0], 0, [], 3⟩ : HeapItem).segment_ord
         = (⟨[1], 0, [], 3⟩ : HeapItem).segment_ord)) ∧
    ¬ (HeapItem.cmp ⟨[0], 0, [], 3⟩ ⟨[1], 0, [], 3⟩ = .eq) := by
  refine ⟨rfl, ?_, ?_⟩
  · intro h
    have := h.mp rfl
    simp at this
  · intro h
    have := (cmpKeyOrd_eq_iff _ _).mp h
    simp [HeapItem.pri] at this

/-- C6 amended: `HeapItem` equality is defined over `segment_ord` alone;
the ordering compares keys first with the segment ordinal as tie-breaker
(reversed, for min-heap behaviour through a max-heap); `cmp(a, b) = Equal`
iff both key bytes and ordinals agree, so `cmp` equality implies `==` but
not conversely. -/
theorem heapitem_eq_cmp_spec (a b : HeapItem) :
    (HeapItem.eq a b = true ↔ a.segment_ord = b.segment_ord) ∧
    (HeapItem.cmp a b = .eq ↔ (a.key = b.key ∧ a.segment_ord = b.segment_ord)) ∧
    (HeapItem.cmp a b = .eq → HeapItem.eq a b = true) := by
  have hcmp : HeapItem.cmp a b = .eq ↔
      (a.key = b.key ∧ a.segment_ord = b.segment_ord) := by
    rw [HeapItem.cmp, cmpKeyOrd_eq_iff, Prod.ext_iff]
    constructor
    · rintro ⟨h1, h2⟩
      exact ⟨h1.symm, h2.symm⟩
    · rintro ⟨h1, h2⟩
      exact ⟨h1.symm, h2.symm⟩
  have heq : HeapItem.eq a b = true ↔ a.segment_ord = b.segment_ord := by
    rw [HeapItem.eq, beq_iff_eq]
  exact ⟨heq, hcmp, fun h => heq.mpr (hcmp.mp h).2⟩

/-- C9: exhaustion is permanent.  A `false` return from `advance` leaves the
heap and the current group empty, and from that state every further
`advance` returns `false` with the state unchanged. -/
theorem termMerger_exhaustion_permanent (m m2 : TermMerger)
    (h : m.advance = (false, m2)) :
    m2.heap = [] ∧ m2.current_streamers = [] ∧ m2.advance = (false, m2) := by
  rw [TermMerger.advance] at h
  cases hp : heapPopMin m.advance_segments.heap with
  | some p =>
    rw [hp] at h
    dsimp only at h
    cases h
  | none =>
    rw [hp] at h
    dsimp only at h
    injection h with h1 h2
    have hheap : m.advance_segments.heap = [] :=
      (heapPopMin_eq_none_iff _).mp hp
    have hm2 : m.advance_segments = ⟨[], []⟩ := by
      have he : m.advance_segments
          = ⟨m.advance_segments.heap, m.advance_segments.current_streamers⟩ := rfl
      rw [he, hheap]
      rfl
    subst h2
    rw [hm2]
    exact ⟨rfl, rfl, rfl⟩

theorem termMerger_exhaustion_permanent_witness :
    TermMerger.advance ⟨[], []⟩ = (false, ⟨[], []⟩) ∧
    (TermMerger.mk [] []).heap = [] := by
  exact ⟨(termMerger_exhaustion_permanent ⟨[], []⟩ ⟨[], []⟩ rfl).2.2, rfl⟩

/-! ### Correctness of the gather loop -/

theorem gatherLoop_perm :
    ∀ (fuel : Nat) (k : Key) (h g h2 : List HeapItem),
    gatherLoop fuel k h = (g, h2) → h.Perm (g ++ h2) := by
  intro fuel
  induction fuel with
  | zero =>
    intro k h g h2 hg
    rw [gatherLoop] at hg
    injection hg with h1 h2
    subst h1
    subst h2
    exact List.Perm.refl _
  | succ fuel ih =>
    intro k h g h2 hg
    rw [gatherLoop] at hg
    cases hp : heapPopMin h with
    | none =>
      rw [hp] at hg
      dsimp only at hg
      injection hg with e1 e2
      subst e1
      subst e2
      exact List.Perm.refl _
    | some p =>
      obtain ⟨next, hrest⟩ := p
      rw [hp] at hg
      dsimp only at hg
      by_cases hk : next.key = k
      · rw [if_pos hk] at hg
        cases hr : gatherLoop fuel k hrest with
        | mk g2 h3 =>
          rw [hr] at hg
          dsimp only at hg
          injection hg with e1 e2
          subst e1
          subst e2
          exact (heapPopMin_perm hp).trans ((ih k hrest g2 h3 hr).cons next)
      · rw [if_neg hk] at hg
        injection hg with e1 e2
        subst e1
        subst e2
        exact List.Perm.refl _

theorem gatherLoop_keys :
    ∀ (fuel : Nat) (k : Key) (h g h2 : List HeapItem),
    gatherLoop fuel k h = (g, h2) → ∀ it ∈ g, it.key = k := by
  intro fuel
  induction fuel with
  | zero =>
    intro k h g h2 hg
    rw [gatherLoop] at hg
    injection hg with e1 e2
    subst e1
    intro it hit
    cases hit
  | succ fuel ih =>
    intro k h g h2 hg
    rw [gatherLoop] at hg
    cases hp : heapPopMin h with
    | none =>
      rw [hp] at hg
      dsimp only at hg
      injection hg with e1 e2
      subst e1
      intro it hit
      cases hit
    | some p =>
      obtain ⟨next, hrest⟩ := p
      rw [hp] at hg
      dsimp only at hg
      by_cases hk : next.key = k
      · rw [if_pos hk] at hg
        cases hr : gatherLoop fuel k hrest with
        | mk g2 h3 =>
          rw [hr] at hg
          dsimp only at hg
          injection hg with e1 e2
          subst e1
          intro it hit
          rcases List.mem_cons.mp hit with hh | hh
          · subst hh
            exact hk
          · exact ih k hrest g2 h3 hr it hh
      · rw [if_neg hk] at hg
        injection hg with e1 e2
        subst e1
        intro it hit
        cases hit

theorem gatherLoop_residue :
    ∀ (fuel : Nat) (k : Key) (h g h2 : List HeapItem),
    h.length ≤ fuel → (∀ it ∈ h, cmpKey k it.key ≠ .gt) →
    gatherLoop fuel k h = (g, h2) → ∀ it ∈ h2, ltKey k it.key := by
  intro fuel
  induction fuel with
  | zero =>
    intro k h g h2 hf _ hg
    have : h = [] := List.length_eq_zero.mp (Nat.le_zero.mp hf)
    subst this
    rw [gatherLoop] at hg
    injection hg with e1 e2
    subst e2
    intro it hit
    cases hit
  | succ fuel ih =>
    intro k h g h2 hf hmin hg
    rw [gatherLoop] at hg
    cases hp : heapPopMin h with
    | none =>
      rw [hp] at hg
      dsimp only at hg
      injection hg with e1 e2
      subst e2
      have : h = [] := (heapPopMin_eq_none_iff h).mp hp
      subst this
      intro it hit
      cases hit
    | some p =>
      obtain ⟨next, hrest⟩ := p
      rw [hp] at hg
      dsimp only at hg
      have hperm := heapPopMin_perm hp
      have hlen := heapPopMin_length hp
      by_cases hk : next.key = k
      · rw [if_pos hk] at hg
        cases hr : gatherLoop fuel k hrest with
        | mk g2 h3 =>
          rw [hr] at hg
          dsimp only at hg
          injection hg with e1 e2
          subst e2
          refine ih k hrest g2 h3 (by omega) ?_ hr
          intro it hit
          exact hmin it (hperm.mem_iff.mpr (List.mem_cons_of_mem next hit))
      · rw [if_neg hk] at hg
        injection hg with e1 e2
        subst e2
        intro it hit
        have hnextmem : next ∈ h := hperm.mem_iff.mpr (List.mem_cons_self next hrest)
        have hknext : ltKey k next.key :=
          leKey_ne_lt (hmin next hnextmem) fun he => hk he.symm
        have hle : cmpKey next.key it.key ≠ .gt :=
          cmpKeyOrd_key_not_gt (heapPopMin_min hp it hit)
        exact ltKey_le_trans hknext hle

theorem gatherLoop_ords :
    ∀ (fuel : Nat) (k : Key) (o : Nat) (h g h2 : List HeapItem),
    h.length ≤ fuel → (h.map HeapItem.segment_ord).Nodup →
    (∀ it ∈ h, cmpKeyOrd (k, o) it.pri ≠ .gt) →
    o ∉ h.map HeapItem.segment_ord →
    gatherLoop fuel k h = (g, h2) →
    List.Chain' (· < ·) (o :: g.map HeapItem.segment_ord) := by
  intro fuel
  induction fuel with
  | zero =>
    intro k o h g h2 hf _ _ _ hg
    rw [gatherLoop] at hg
    injection hg with e1 e2
    subst e1
    simp
  | succ fuel ih =>
    intro k o h g h2 hf hnd hmin ho hg
    rw [gatherLoop] at hg
    cases hp : heapPopMin h with
    | none =>
      rw [hp] at hg
      dsimp only at hg
      injection hg with e1 e2
      subst e1
      simp
    | some p =>
      obtain ⟨next, hrest⟩ := p
      rw [hp] at hg
      dsimp only at hg
      have hperm := heapPopMin_perm hp
      have hlen := heapPopMin_length hp
      by_cases hk : next.key = k
      · rw [if_pos hk] at hg
        cases hr : gatherLoop fuel k hrest with
        | mk g2 h3 =>
          rw [hr] at hg
          dsimp only at hg
          injection hg with e1 e2
          subst e1
          have hndperm : (next.segment_ord :: hrest.map HeapItem.segment_ord).Nodup := by
            have := (hperm.map HeapItem.segment_ord)
            exact this.nodup_iff.mp hnd
          have hnextmem : next ∈ h := hperm.mem_iff.mpr (List.mem_cons_self next hrest)
          have holt : o < next.segment_ord := by
            have h1 : cmpKeyOrd (k, o) next.pri ≠ .gt := hmin next hnextmem
            rw [HeapItem.pri, hk] at h1
            have h2 : o ≤ next.segment_ord := cmpKeyOrd_eqkey_ord_le h1
            have h3 : o ≠ next.segment_ord := by
              intro he
              apply ho
              rw [he]
              exact List.mem_map_of_mem HeapItem.segment_ord hnextmem
            omega
          have hchain : List.Chain' (· < ·)
              (next.segment_ord :: g2.map HeapItem.segment_ord) := by
            refine ih k next.segment_ord hrest g2 h3 (by omega)
              (List.Nodup.of_cons hndperm) ?_ ?_ hr
            · intro it hit
              have := heapPopMin_min hp it (hperm.mem_iff.mpr
                (List.mem_cons_of_mem next hit))
              rw [heapLe, HeapItem.pri, hk] at this
              exact this
            · intro hmem
              exact (List.nodup_cons.mp hndperm).1 hmem
          simp only [List.map_cons]
          exact List.Chain'.cons holt hchain
      · rw [if_neg hk] at hg
        injection hg with e1 e2
        subst e1
        simp

/-! ### Invariants of the merge state -/

/-- The streamer behind `it` is strictly sorted and positioned on a key
smaller than everything still pending. -/
def itemOK (it : HeapItem) : Prop := List.Chain' ltKey (itemKeys it)

/-- The pending entries of the streamer behind `it` are strictly sorted
(its current key makes no promise — the un-advanced initial state). -/
def pendOK (it : HeapItem) : Prop := List.Chain' ltKey (pendKeys it)

theorem itemOK.toPendOK {it : HeapItem} (h : itemOK it) : pendOK it :=
  List.Chain'.tail h

theorem chain'_ltKey_head :
    ∀ (l : List Key) (x : Key), List.Chain' ltKey (x :: l) →
    ∀ q ∈ l, ltKey x q := by
  intro l
  induction l with
  | nil =>
    intro x _ q hq
    cases hq
  | cons y ys ih =>
    intro x hc q hq
    have h1 : ltKey x y := (List.chain'_cons.mp hc).1
    rcases List.mem_cons.mp hq with h | h
    · exact h ▸ h1
    · exact ltKey_trans h1 (ih y (List.chain'_cons.mp hc).2 q h)

theorem itemOK.pend_gt {it : HeapItem} (h : itemOK it) :
    ∀ q ∈ pendKeys it, ltKey it.key q :=
  chain'_ltKey_head (pendKeys it) it.key h

def ordsOf (m : TermMerger) : List Nat :=
  (m.heap ++ m.current_streamers).map HeapItem.segment_ord

/-- Invariant holding at every state of a merger built over strictly sorted
streams: heap items fully sorted, current streamers' pendings sorted,
segment ordinals pairwise distinct. -/
structure InvGen (m : TermMerger) : Prop where
  heap_ok : ∀ it ∈ m.heap, itemOK it
  cs_pend : ∀ it ∈ m.current_streamers, pendOK it
  ords_nd : (ordsOf m).Nodup

/-- Invariant holding after every `advance` that returned `true`. -/
structure InvPos (m : TermMerger) : Prop where
  heap_ok : ∀ it ∈ m.heap, itemOK it
  cs_ok : ∀ it ∈ m.current_streamers, itemOK it
  cs_ne : m.current_streamers ≠ []
  cs_key : ∀ it ∈ m.current_streamers, it.key = m.key
  heap_gt : ∀ it ∈ m.heap, ltKey m.key it.key
  ords_nd : (ordsOf m).Nodup
  cs_ords : List.Chain' (· < ·) (m.current_streamers.map HeapItem.segment_ord)

theorem InvPos.toInvGen {m : TermMerger} (h : InvPos m) : InvGen m :=
  ⟨h.heap_ok, fun it hit => (h.cs_ok it hit).toPendOK, h.ords_nd⟩

/-! ### `advance_segments` facts -/

theorem advanceItem_spec {it it2 : HeapItem} (h : advanceItem it = some it2) :
    ∃ e rest, it.pending = e :: rest ∧
      it2 = ⟨e.1, e.2, rest, it.segment_ord⟩ := by
  rw [advanceItem] at h
  cases hp : it.pending with
  | nil =>
    rw [hp] at h
    cases h
  | cons e rest =>
    rw [hp] at h
    dsimp only at h
    injection h with h1
    exact ⟨e, rest, rfl, h1.symm⟩

theorem advanceItem_itemOK {it it2 : HeapItem} (hp : pendOK it)
    (h : advanceItem it = some it2) : itemOK it2 := by
  obtain ⟨e, rest, hpend, heq⟩ := advanceItem_spec h
  subst heq
  rw [itemOK, itemKeys]
  rw [pendOK, pendKeys, hpend] at hp
  exact hp

theorem advanceItem_itemKeys {it it2 : HeapItem} (h : advanceItem it = some it2) :
    itemKeys it2 = pendKeys it := by
  obtain ⟨e, rest, hpend, heq⟩ := advanceItem_spec h
  subst heq
  rw [itemKeys, pendKeys, hpend]
  rfl

theorem advanceItem_ord {it it2 : HeapItem} (h : advanceItem it = some it2) :
    it2.segment_ord = it.segment_ord := by
  obtain ⟨e, rest, hpend, heq⟩ := advanceItem_spec h
  subst heq
  rfl

theorem filterMap_advanceItem_ords_sublist (l : List HeapItem) :
    ((l.filterMap advanceItem).map HeapItem.segment_ord).Sublist
      (l.map HeapItem.segment_ord) := by
  induction l with
  | nil => simp
  | cons it rest ih =>
    cases h : advanceItem it with
    | none =>
      rw [List.filterMap_cons_none h, List.map_cons]
      exact ih.cons it.segment_ord
    | some it2 =>
      rw [List.filterMap_cons_some h, List.map_cons, List.map_cons,
        advanceItem_ord h]
      exact ih.cons₂ it.segment_ord

theorem flatten_map_itemKeys_filterMap (l : List HeapItem) :
    ((l.filterMap advanceItem).map itemKeys).flatten
      = (l.map pendKeys).flatten := by
  induction l with
  | nil => rfl
  | cons it rest ih =>
    cases h : advanceItem it with
    | none =>
      rw [List.filterMap_cons_none h, List.map_cons, List.flatten_cons]
      have hpend : it.pending = [] := by
        rw [advanceItem] at h
        cases hp : it.pending with
        | nil => rfl
        | cons e r =>
          rw [hp] at h
          cases h
      rw [pendKeys, hpend]
      simpa using ih
    | some it2 =>
      rw [List.filterMap_cons_some h, List.map_cons, List.map_cons,
        List.flatten_cons, List.flatten_cons, advanceItem_itemKeys h, ih]

theorem remKeys_advance_segments (m : TermMerger) :
    remKeys m.advance_segments = remKeys m := by
  show ((m.heap ++ m.current_streamers.filterMap advanceItem).map itemKeys).flatten
      ++ (([] : List HeapItem).map pendKeys).flatten
    = (m.heap.map itemKeys).flatten ++ (m.current_streamers.map pendKeys).flatten
  rw [List.map_append, List.flatten_append, flatten_map_itemKeys_filterMap]
  simp

theorem advance_segments_heap_ok {m : TermMerger} (h : InvGen m) :
    ∀ it ∈ m.advance_segments.heap, itemOK it := by
  intro it hit
  rcases List.mem_append.mp hit with hh | hh
  · exact h.heap_ok it hh
  · obtain ⟨a, ha, hadv⟩ := List.mem_filterMap.mp hh
    exact advanceItem_itemOK (h.cs_pend a ha) hadv

theorem advance_segments_ords_nd {m : TermMerger} (h : InvGen m) :
    (m.advance_segments.heap.map HeapItem.segment_ord).Nodup := by
  have hsub : (m.advance_segments.heap.map HeapItem.segment_ord).Sublist
      (ordsOf m) := by
    show ((m.heap ++ m.current_streamers.filterMap advanceItem).map
      HeapItem.segment_ord).Sublist _
    rw [ordsOf, List.map_append, List.map_append]
    exact (filterMap_advanceItem_ords_sublist m.current_streamers).append_left _
  exact hsub.nodup h.ords_nd

theorem mem_flatten_map {α β : Type} (f : α → List β) (l : List α) (q : β) :
    q ∈ (l.map f).flatten ↔ ∃ it ∈ l, q ∈ f it := by
  simp [List.mem_flatten]

theorem flatten_map_itemKeys_length (zs : List HeapItem) :
    ((zs.map itemKeys).flatten).length
      = zs.length + ((zs.map pendKeys).flatten).length := by
  induction zs with
  | nil => rfl
  | cons it rest ih =>
    simp only [List.map_cons, List.flatten_cons, List.length_append,
      List.length_cons, ih, itemKeys, pendKeys]
    omega

/-- Everything `advance` guarantees when it returns `true`: the positioned
invariant, strict domination of the new key over the remaining keys,
membership of the new key among the previous remaining keys, removal of
exactly that key from the remaining multiset, and strict progress. -/
theorem advance_true_spec {m m2 : TermMerger} (hinv : InvGen m)
    (h : m.advance = (true, m2)) :
    InvPos m2 ∧
    (∀ q ∈ remKeys m2, ltKey m2.key q) ∧
    m2.key ∈ remKeys m ∧
    (∀ q, q ∈ remKeys m ↔ (q = m2.key ∨ q ∈ remKeys m2)) ∧
    (remKeys m2).length < (remKeys m).length := by
  rw [TermMerger.advance] at h
  cases hp : heapPopMin m.advance_segments.heap with
  | none =>
    rw [hp] at h
    dsimp only at h
    injection h with h1 h2
    cases h1
  | some p =>
    obtain ⟨head, heap1⟩ := p
    rw [hp] at h
    dsimp only at h
    cases hr : gatherLoop heap1.length head.key heap1 with
    | mk g heap2 =>
      rw [hr] at h
      dsimp only at h
      injection h with h1 h2
      subst h2
      have hok1 : ∀ it ∈ m.advance_segments.heap, itemOK it :=
        advance_segments_heap_ok hinv
      have hnd1 : (m.advance_segments.heap.map HeapItem.segment_ord).Nodup :=
        advance_segments_ords_nd hinv
      have hperm := heapPopMin_perm hp
      have hmin := heapPopMin_min hp
      have hgperm := gatherLoop_perm heap1.length head.key heap1 g heap2 hr
      have hmember : ∀ it ∈ heap1, it ∈ m.advance_segments.heap :=
        fun it hit => hperm.mem_iff.mpr (List.mem_cons_of_mem head hit)
      have hheadmem : head ∈ m.advance_segments.heap :=
        hperm.mem_iff.mpr (List.mem_cons_self head heap1)
      have hres : ∀ it ∈ heap2, ltKey head.key it.key := by
        refine gatherLoop_residue heap1.length head.key heap1 g heap2
          (le_refl _) ?_ hr
        intro it hit
        exact cmpKeyOrd_key_not_gt (hmin it (hmember it hit))
      have hndcons :
          (head.segment_ord :: heap1.map HeapItem.segment_ord).Nodup := by
        have := (hperm.map HeapItem.segment_ord).nodup_iff.mp hnd1
        simpa using this
      have hords : List.Chain' (· < ·)
          (head.segment_ord :: g.map HeapItem.segment_ord) := by
        refine gatherLoop_ords heap1.length head.key head.segment_ord heap1 g
          heap2 (le_refl _) (List.Nodup.of_cons hndcons) ?_ ?_ hr
        · intro it hit
          exact hmin it (hmember it hit)
        · exact (List.nodup_cons.mp hndcons).1
      have hall : m.advance_segments.heap.Perm ((head :: g) ++ heap2) :=
        hperm.trans (hgperm.cons head)
      have hgroupkeys : ∀ it ∈ head :: g, it.key = head.key := by
        intro it hit
        rcases List.mem_cons.mp hit with hh | hh
        · rw [hh]
        · exact gatherLoop_keys heap1.length head.key heap1 g heap2 hr it hh
      have hmkey : TermMerger.key ⟨heap2, head :: g⟩ = head.key := rfl
      have hgroup_ok : ∀ it ∈ head :: g, itemOK it := fun it hit =>
        hok1 it (hall.mem_iff.mpr (List.mem_append_left _ hit))
      have hheap2_ok : ∀ it ∈ heap2, itemOK it := fun it hit =>
        hok1 it (hall.mem_iff.mpr (List.mem_append_right _ hit))
      have hstrict : ∀ q ∈ remKeys ⟨heap2, head :: g⟩, ltKey head.key q := by
        intro q hq
        rcases List.mem_append.mp hq with hq | hq
        · obtain ⟨it, hit, hqit⟩ := (mem_flatten_map itemKeys heap2 q).mp hq
          rcases List.mem_cons.mp hqit with hh | hh
          · exact hh ▸ hres it hit
          · exact ltKey_trans (hres it hit) ((hheap2_ok it hit).pend_gt q hh)
        · obtain ⟨it, hit, hqit⟩ := (mem_flatten_map pendKeys (head :: g) q).mp hq
          have := (hgroup_ok it hit).pend_gt q hqit
          rw [hgroupkeys it hit] at this
          exact this
      have hremm : remKeys m = (m.advance_segments.heap.map itemKeys).flatten := by
        rw [← remKeys_advance_segments m]
        show _ ++ (([] : List HeapItem).map pendKeys).flatten = _
        simp
      have hpermflat : (remKeys m).Perm
          ((((head :: g) ++ heap2).map itemKeys).flatten) := by
        rw [hremm]
        exact (hall.map itemKeys).flatten
      have hmemiff : ∀ q, q ∈ remKeys m ↔
          (q = head.key ∨ q ∈ remKeys ⟨heap2, head :: g⟩) := by
        intro q
        rw [hpermflat.mem_iff, mem_flatten_map]
        constructor
        · rintro ⟨it, hit, hqit⟩
          rcases List.mem_append.mp hit with hh | hh
          · rcases List.mem_cons.mp hqit with hq | hq
            · exact Or.inl (hq.trans (hgroupkeys it hh))
            · refine Or.inr (List.mem_append.mpr (Or.inr ?_))
              exact (mem_flatten_map pendKeys (head :: g) q).mpr ⟨it, hh, hq⟩
          · refine Or.inr (List.mem_append.mpr (Or.inl ?_))
            exact (mem_flatten_map itemKeys heap2 q).mpr ⟨it, hh, hqit⟩
        · rintro (hq | hq)
          · exact ⟨head, List.mem_append_left _ (List.mem_cons_self head g),
              hq ▸ List.mem_cons_self head.key _⟩
          · rcases List.mem_append.mp hq with hh | hh
            · obtain ⟨it, hit, hqit⟩ := (mem_flatten_map itemKeys heap2 q).mp hh
              exact ⟨it, List.mem_append_right _ hit, hqit⟩
            · obtain ⟨it, hit, hqit⟩ :=
                (mem_flatten_map pendKeys (head :: g) q).mp hh
              exact ⟨it, List.mem_append_left _ hit,
                List.mem_cons_of_mem _ hqit⟩
      have hlength : (remKeys ⟨heap2, head :: g⟩).length < (remKeys m).length := by
        have h1 : (remKeys m).length
            = ((((head :: g) ++ heap2).map itemKeys).flatten).length :=
          hpermflat.length_eq
        rw [List.map_append, List.flatten_append, List.length_append] at h1
        have h2 : (remKeys ⟨heap2, head :: g⟩).length
            = (((heap2.map itemKeys).flatten).length)
              + ((((head :: g).map pendKeys).flatten).length) := by
          rw [remKeys, List.length_append]
        have h3 := flatten_map_itemKeys_length (head :: g)
        have h4 : (head :: g).length = g.length + 1 := by simp
        omega
      refine ⟨⟨hheap2_ok, hgroup_ok, by simp, ?_, ?_, ?_, ?_⟩, ?_, ?_, hmemiff, hlength⟩
      · rw [hmkey]
        exact hgroupkeys
      · rw [hmkey]
        exact hres
      · show ((heap2 ++ (head :: g)).map HeapItem.segment_ord).Nodup
        have hq : (heap2 ++ (head :: g)).Perm m.advance_segments.heap :=
          (List.perm_append_comm).trans hall.symm
        exact (hq.map HeapItem.segment_ord).nodup_iff.mpr hnd1
      · show List.Chain' (· < ·) ((head :: g).map HeapItem.segment_ord)
        simpa using hords
      · rw [hmkey]
        exact hstrict
      · rw [hmkey]
        exact (hmemiff head.key).mpr (Or.inl rfl)

theorem advance_false_iff (m : TermMerger) :
    (m.advance).1 = false ↔ remKeys m = [] := by
  rw [TermMerger.advance]
  cases hp : heapPopMin m.advance_segments.heap with
  | none =>
    dsimp only
    have hheap : m.advance_segments.heap = [] :=
      (heapPopMin_eq_none_iff _).mp hp
    have h1 : m.heap = [] ∧ m.current_streamers.filterMap advanceItem = [] :=
      List.append_eq_nil.mp hheap
    constructor
    · intro _
      rw [remKeys, h1.1]
      simp only [List.map_nil, List.flatten_nil, List.nil_append]
      have hpend : ∀ it ∈ m.current_streamers, pendKeys it = [] := by
        intro it hit
        have hnone := List.filterMap_eq_nil_iff.mp h1.2 it hit
        rw [advanceItem] at hnone
        cases hpp : it.pending with
        | nil =>
          rw [pendKeys, hpp]
          rfl
        | cons e r =>
          rw [hpp] at hnone
          cases hnone
      rw [List.flatten_eq_nil_iff]
      intro ks hks
      obtain ⟨it, hit, heq⟩ := List.mem_map.mp hks
      rw [← heq]
      exact hpend it hit
    · intro _
      rfl
  | some p =>
    obtain ⟨head, heap1⟩ := p
    dsimp only
    constructor
    · intro hc
      cases hc
    · intro hrem
      exfalso
      have hmem : head ∈ m.advance_segments.heap :=
        (heapPopMin_perm hp).mem_iff.mpr (List.mem_cons_self head heap1)
      have : head.key ∈ remKeys m := by
        rw [← remKeys_advance_segments m, remKeys]
        refine List.mem_append.mpr (Or.inl ?_)
        exact (mem_flatten_map itemKeys _ _).mpr
          ⟨head, hmem, List.mem_cons_self head.key _⟩
      rw [hrem] at this
      cases this

theorem InvGen_new (streams : List (List Entry))
    (hs : ∀ s ∈ streams, List.Chain' ltKey (s.map Prod.fst)) :
    InvGen (TermMerger.new streams) := by
  refine ⟨?_, ?_, ?_⟩
  · intro it hit
    simp [TermMerger.new] at hit
  · intro it hit
    obtain ⟨p, hp, heq⟩ := List.mem_map.mp hit
    have hsnd : p.2 ∈ streams := by
      have := List.mem_map_of_mem Prod.snd hp
      rwa [List.enum_map_snd] at this
    rw [← heq]
    exact hs p.2 hsnd
  · have hh : (TermMerger.new streams).heap = [] := rfl
    have hcs : (TermMerger.new streams).current_streamers
        = streams.enum.map (fun p => HeapItem.mk [] 0 p.2 p.1) := rfl
    rw [ordsOf, hh, hcs, List.nil_append, List.map_map]
    have : (HeapItem.segment_ord ∘ fun p : Nat × List Entry =>
        HeapItem.mk [] 0 p.2 p.1) = Prod.fst := by
      funext p
      rfl
    rw [this, List.enum_map_fst]
    exact List.nodup_range streams.length

theorem remKeys_new (streams : List (List Entry)) :
    remKeys (TermMerger.new streams)
      = (streams.map fun s => s.map Prod.fst).flatten := by
  have hh : (TermMerger.new streams).heap = [] := rfl
  have hcs : (TermMerger.new streams).current_streamers
      = streams.enum.map (fun p => HeapItem.mk [] 0 p.2 p.1) := rfl
  rw [remKeys, hh, hcs, List.map_nil, List.flatten_nil, List.nil_append,
    List.map_map]
  have : (pendKeys ∘ fun p : Nat × List Entry =>
      HeapItem.mk [] 0 p.2 p.1) = (fun s => s.map Prod.fst) ∘ Prod.snd := by
    funext p
    rfl
  rw [this, ← List.map_map, List.enum_map_snd]

/-- Repeatedly `advance` and collect `key()` after every `true` return,
stopping at the first `false`. -/
def runMerger : Nat → TermMerger → List Key
  | 0, _ => []
  | fuel + 1, m =>
    match m.advance with
    | (false, _) => []
    | (true, m2) => m2.key :: runMerger fuel m2

theorem runMerger_spec :
    ∀ (fuel : Nat) (m : TermMerger), InvGen m → (remKeys m).length < fuel →
    List.Pairwise ltKey (runMerger fuel m) ∧
    (∀ q, q ∈ runMerger fuel m ↔ q ∈ remKeys m) := by
  intro fuel
  induction fuel with
  | zero =>
    intro m _ hf
    exact absurd hf (Nat.not_lt_zero _)
  | succ fuel ih =>
    intro m hinv hf
    rw [runMerger]
    cases hadv : m.advance with
    | mk b m2 =>
      cases b with
      | false =>
        dsimp only
        have hrem : remKeys m = [] := (advance_false_iff m).mp (by rw [hadv])
        refine ⟨List.Pairwise.nil, fun q => ?_⟩
        rw [hrem]
      | true =>
        dsimp only
        obtain ⟨hpos, hstrict, hmem, hiff, hlen⟩ := advance_true_spec hinv hadv
        have ih2 := ih m2 hpos.toInvGen (by omega)
        constructor
        · refine List.Pairwise.cons ?_ ih2.1
          intro q hq
          exact hstrict q ((ih2.2 q).mp hq)
        · intro q
          rw [List.mem_cons, ih2.2 q]
          exact (hiff q).symm

/-- The positioned states of a merger over `streams`: reachable by at least
one `advance` that returned `true`. -/
inductive Positioned (streams : List (List Entry)) : TermMerger → Prop where
  | first {m : TermMerger} :
      (TermMerger.new streams).advance = (true, m) → Positioned streams m
  | step {m m2 : TermMerger} :
      Positioned streams m → m.advance = (true, m2) → Positioned streams m2

theorem Positioned_invPos (streams : List (List Entry))
    (hs : ∀ s ∈ streams, List.Chain' ltKey (s.map Prod.fst))
    {m : TermMerger} (h : Positioned streams m) : InvPos m := by
  induction h with
  | first hadv => exact (advance_true_spec (InvGen_new streams hs) hadv).1
  | step hpos hadv ih => exact (advance_true_spec ih.toInvGen hadv).1

/-- C3: over strictly increasing, duplicate-free input streams, the keys
observed across successive `advance()` calls returning `true` form a
strictly increasing (hence duplicate-free) sequence under byte-lexicographic
order whose members are exactly the union of all input keys — i.e. the
sorted union — and `advance()` returns `false` exactly when no keys
remain. -/
theorem termMerger_sorted_union (streams : List (List Entry))
    (hs : ∀ s ∈ streams, List.Pairwise ltKey (s.map Prod.fst))
    (fuel : Nat) (hfuel : (streams.map List.length).sum < fuel) :
    List.Pairwise ltKey (runMerger fuel (TermMerger.new streams)) ∧
    (∀ q, q ∈ runMerger fuel (TermMerger.new streams) ↔
      ∃ s ∈ streams, q ∈ s.map Prod.fst) ∧
    (∀ m : TermMerger, (m.advance).1 = false ↔ remKeys m = []) := by
  have hlen : (remKeys (TermMerger.new streams)).length
      = (streams.map List.length).sum := by
    rw [remKeys_new, List.length_flatten, List.map_map]
    have : (List.length ∘ fun s : List Entry => List.map Prod.fst s)
        = List.length := by
      funext s
      simp
    rw [this]
  have hrun := runMerger_spec fuel (TermMerger.new streams)
    (InvGen_new streams fun s hss => (hs s hss).chain') (by omega)
  refine ⟨hrun.1, fun q => ?_, advance_false_iff⟩
  rw [hrun.2 q, remKeys_new, mem_flatten_map]

theorem termMerger_sorted_union_witness :
    List.Pairwise ltKey (runMerger 7 (TermMerger.new
      [[([97], 1), ([99], 2)], [([98], 3), ([99], 4)], [([97], 5), ([100], 6)]])) ∧
    [98] ∈ runMerger 7 (TermMerger.new
      [[([97], 1), ([99], 2)], [([98], 3), ([99], 4)], [([97], 5), ([100], 6)]]) := by
  have h := termMerger_sorted_union
    [[([97], 1), ([99], 2)], [([98], 3), ([99], 4)], [([97], 5), ([100], 6)]]
    (by decide) 7 (by decide)
  refine ⟨h.1, (h.2.1 [98]).mpr ?_⟩
  exact ⟨[([98], 3), ([99], 4)], by decide, by decide⟩

/-- C4: at every positioned state, `current_segment_ords_and_term_infos()`
yields exactly one `(segment_ord, term_info)` pair per group member — all
group members carry the merged key, no stream left in the heap does — and
the pairs appear in strictly ascending segment-ordinal order. -/
theorem termMerger_group_spec (streams : List (List Entry))
    (hs : ∀ s ∈ streams, List.Pairwise ltKey (s.map Prod.fst))
    (m : TermMerger) (hm : Positioned streams m) :
    m.current_segment_ords_and_term_infos
      = m.current_streamers.map (fun it => (it.segment_ord, it.info)) ∧
    m.current_streamers ≠ [] ∧
    (∀ it ∈ m.current_streamers, it.key = m.key) ∧
    (∀ it ∈ m.heap, it.key ≠ m.key) ∧
    List.Chain' (· < ·) (m.current_segment_ords_and_term_infos.map Prod.fst) := by
  have hp := Positioned_invPos streams (fun s hss => (hs s hss).chain') hm
  refine ⟨rfl, hp.cs_ne, hp.cs_key, ?_, ?_⟩
  · intro it hit he
    exact ltKey_ne (hp.heap_gt it hit) he.symm
  · have : m.current_segment_ords_and_term_infos.map Prod.fst
        = m.current_streamers.map HeapItem.segment_ord := by
      rw [TermMerger.current_segment_ords_and_term_infos, List.map_map]
      rfl
    rw [this]
    exact hp.cs_ords

theorem termMerger_group_spec_witness :
    (TermMerger.mk
      [⟨[98], 3, [([99], 4)], 1⟩]
      [⟨[97], 1, [([99], 2)], 0⟩, ⟨[97], 5, [([100], 6)], 2⟩]
      ).current_segment_ords_and_term_infos = [(0, 1), (2, 5)] ∧
    List.Chain' (· < ·) ((TermMerger.mk
      [⟨[98], 3, [([99], 4)], 1⟩]
      [⟨[97], 1, [([99], 2)], 0⟩, ⟨[97], 5, [([100], 6)], 2⟩]
      ).current_segment_ords_and_term_infos.map Prod.fst) := by
  have h := termMerger_group_spec
    [[([97], 1), ([99], 2)], [([98], 3), ([99], 4)], [([97], 5), ([100], 6)]]
    (by decide)
    (TermMerger.mk
      [⟨[98], 3, [([99], 4)], 1⟩]
      [⟨[97], 1, [([99], 2)], 0⟩, ⟨[97], 5, [([100], 6)], 2⟩])
    (Positioned.first (by decide))
  exact ⟨by decide, h.2.2.2.2⟩

/-- C8: at every positioned state all group members carry identical key
bytes, every item remaining in the queue has a strictly greater key, no
segment ordinal occurs twice in the group — and every further successful
`advance` preserves the invariant. -/
theorem termMerger_group_invariant (streams : List (List Entry))
    (hs : ∀ s ∈ streams, List.Pairwise ltKey (s.map Prod.fst))
    (m : TermMerger) (hm : Positioned streams m) :
    (∀ it ∈ m.current_streamers, it.key = m.key) ∧
    (∀ it ∈ m.heap, ltKey m.key it.key) ∧
    (m.current_streamers.map HeapItem.segment_ord).Nodup ∧
    (∀ m2, m.advance = (true, m2) →
      (∀ it ∈ m2.current_streamers, it.key = m2.key) ∧
      (∀ it ∈ m2.heap, ltKey m2.key it.key) ∧
      (m2.current_streamers.map HeapItem.segment_ord).Nodup) := by
  have hnd : ∀ m3 : TermMerger, InvPos m3 →
      (m3.current_streamers.map HeapItem.segment_ord).Nodup := by
    intro m3 h3
    have hsub : (m3.current_streamers.map HeapItem.segment_ord).Sublist
        (ordsOf m3) := by
      rw [ordsOf, List.map_append]
      exact List.sublist_append_right _ _
    exact hsub.nodup h3.ords_nd
  have hp := Positioned_invPos streams (fun s hss => (hs s hss).chain') hm
  refine ⟨hp.cs_key, hp.heap_gt, hnd m hp, ?_⟩
  intro m2 hadv
  have hp2 : InvPos m2 :=
    Positioned_invPos streams (fun s hss => (hs s hss).chain')
      (Positioned.step hm hadv)
  exact ⟨hp2.cs_key, hp2.heap_gt, hnd m2 hp2⟩

theorem termMerger_group_invariant_witness :
    (∀ it ∈ (TermMerger.mk
      [⟨[98], 3, [([99], 4)], 1⟩]
      [⟨[97], 1, [([99], 2)], 0⟩, ⟨[97], 5, [([100], 6)], 2⟩]
      ).current_streamers, it.key = [97]) ∧
    ltKey [98] [99] := by
  have h := termMerger_group_invariant
    [[([97], 1), ([99], 2)], [([98], 3), ([99], 4)], [([97], 5), ([100], 6)]]
    (by decide)
    (TermMerger.mk
      [⟨[98], 3, [([99], 4)], 1⟩]
      [⟨[97], 1, [([99], 2)], 0⟩, ⟨[97], 5, [([100], 6)], 2⟩])
    (Positioned.first (by decide))
  have h2 := (h.2.2.2
    (TermMerger.mk
      [⟨[99], 2, [], 0⟩, ⟨[100], 6, [], 2⟩]
      [⟨[98], 3, [([99], 4)], 1⟩])
    (by decide)).2.1
  refine ⟨h.1, h2 ⟨[99], 2, [], 0⟩ (by decide)⟩

end Tantivy
